import Mathlib

/-!
Shallow embedding of the warrior-apl-formatter core (`src/main.rs`): the
tokenizer `tokenize_line` (regex `TOKEN_RE`), the expression parser
(`split_top_level`, `parse_expr`), the pretty printer
(`pretty_format_condition`), the condition transformer
(`transform_condition` with the `NOT_TALENT_RE` / `TALENT_RE` rewrites), the
line processor (`process_line`) and the script grouper
(`process_apl_grouped`).

Strings are modelled by their character lists.  Regex character classes and
Rust's `trim` are modelled over the ASCII characters they match (the inputs
of interest are ASCII).  Rust's `BTreeMap<String, Vec<String>>` is modelled
by an association list kept sorted by the code-point lexicographic order,
which agrees with the UTF-8 byte order `Ord for String` uses in Rust.
-/

/-- Characters that the operator alternatives of `TOKEN_RE` may start with,
exactly the characters excluded from the identifier class
`[^<>=&|\(\)\s]+`. -/
def opCh (c : Char) : Bool :=
  c = '<' ∨ c = '>' ∨ c = '=' ∨ c = '&' ∨ c = '|' ∨ c = '(' ∨ c = ')'

/-- ASCII whitespace, the `\s` of `TOKEN_RE` and the characters Rust's
`str::trim` removes (restricted to ASCII). -/
def wsCh (c : Char) : Bool :=
  c = ' ' ∨ c = '\t' ∨ c = '\n' ∨ c = '\r' ∨ c = '\x0b' ∨ c = '\x0c'

/-- Rust's `str::trim` on a character list. -/
def trimL (cs : List Char) : List Char :=
  ((cs.dropWhile wsCh).reverse.dropWhile wsCh).reverse

/-- Rust's `str::trim`. -/
def trimStr (s : String) : String := String.mk (trimL s.data)

/-- Emit the pending identifier run (accumulated in reverse), if any. -/
def flushTok (cur : List Char) : List String :=
  if cur.isEmpty then [] else [String.mk cur.reverse]

/-- Core of `TOKEN_RE.find_iter`: leftmost-first matching of
`(<=|>=|<|>|=|&|\||\(|\)|[^<>=&|\(\)\s]+)`.  `cur` accumulates the current
identifier run in reverse. -/
def tokAux : List Char → List Char → List String
  | [], cur => flushTok cur
  | '<' :: '=' :: rest, cur => flushTok cur ++ "<=" :: tokAux rest []
  | '>' :: '=' :: rest, cur => flushTok cur ++ ">=" :: tokAux rest []
  | c :: rest, cur =>
    if opCh c then flushTok cur ++ String.mk [c] :: tokAux rest []
    else if wsCh c then flushTok cur ++ tokAux rest []
    else tokAux rest (c :: cur)
termination_by structural cs => cs

/-- `fn tokenize_line(line: &str) -> Vec<&str>`. -/
def tokenize_line (line : String) : List String := tokAux line.data []

/-- `enum Expr { Atom(String), And(Vec<Expr>), Or(Vec<Expr>) }`. -/
inductive Expr where
  | Atom : String → Expr
  | And : List Expr → Expr
  | Or : List Expr → Expr

/-- The loop of `fn split_top_level`: `cur` holds `tokens[last..i]`, `parts`
the segments pushed so far.  Returns the final `(parts, tokens[last..])`. -/
def splitLoop (op : String) :
    List String → Int → List String → List (List String) →
      List (List String) × List String
  | [], _, cur, parts => (parts, cur)
  | tok :: rest, depth, cur, parts =>
    if tok = "(" then splitLoop op rest (depth + 1) (cur ++ [tok]) parts
    else if tok = ")" then splitLoop op rest (depth - 1) (cur ++ [tok]) parts
    else if depth = 0 ∧ tok = op then splitLoop op rest depth [] (parts ++ [cur])
    else splitLoop op rest depth (cur ++ [tok]) parts
termination_by structural toks => toks

/-- `fn split_top_level(tokens, op) -> Option<Vec<&[&str]>>`. -/
def split_top_level (tokens : List String) (op : String) :
    Option (List (List String)) :=
  match splitLoop op tokens 0 [] [] with
  | ([], _) => none
  | (p :: ps, lastPart) => some ((p :: ps) ++ [lastPart])

/-- The inner-tokens scan of `parse_expr`: `is_single_group` stays true while
the running depth never drops below zero, and the final depth must be zero. -/
def is_single_group : Int → List String → Bool
  | depth, [] => depth == 0
  | depth, tok :: rest =>
    let d := if tok = "(" then depth + 1 else if tok = ")" then depth - 1 else depth
    if d < 0 then false else is_single_group d rest

/-- Fuelled version of `fn parse_expr(tokens: &[&str]) -> Expr`.  Every
recursive call of the source strictly shrinks the token slice, so any fuel
larger than the slice length computes the function (`parseF_eq`). -/
def parseF : Nat → List String → Expr
  | 0, tokens => .Atom (String.intercalate " " tokens)
  | fuel + 1, tokens =>
    match split_top_level tokens "or" with
    | some parts => .Or (parts.map (parseF fuel))
    | none =>
      match split_top_level tokens "and" with
      | some parts => .And (parts.map (parseF fuel))
      | none =>
        if 2 ≤ tokens.length ∧ tokens.head? = some "(" ∧ tokens.getLast? = some ")" then
          if is_single_group 0 ((tokens.drop 1).dropLast) then
            parseF fuel ((tokens.drop 1).dropLast)
          else .Atom (String.intercalate " " tokens)
        else .Atom (String.intercalate " " tokens)

/-- `fn parse_expr(tokens: &[&str]) -> Expr`. -/
def parse_expr (tokens : List String) : Expr := parseF (tokens.length + 1) tokens

/-- `"    ".repeat(indent)`. -/
def indentStr (n : Nat) : String := String.join (List.replicate n "    ")

mutual

/-- `fn pretty_format_condition(expr: &Expr, indent: usize) -> String`. -/
def pretty_format_condition : Expr → Nat → String
  | .Atom s, indent => indentStr indent ++ s
  | .And [], _ => ""
  | .And [p], indent => pretty_format_condition p indent
  | .And (p0 :: p1 :: rest), indent =>
    indentStr indent ++
      String.intercalate " AND " (prettyAndParts (p0 :: p1 :: rest) indent)
  | .Or [], _ => ""
  | .Or [p], indent => pretty_format_condition p indent
  | .Or (p0 :: p1 :: rest), indent =>
    String.intercalate "\n"
      (pretty_format_condition p0 indent :: prettyOrTail (p1 :: rest) indent)
termination_by structural e => e

/-- The `formatted_parts` map of the `Expr::And` arm: a multi-child `Or`
child becomes a parenthesised block, any other child is rendered at indent 0
and trimmed. -/
def prettyAndParts : List Expr → Nat → List String
  | [], _ => []
  | part :: ps, indent =>
    (match part with
     | .Or sub_parts =>
       if sub_parts.length > 1 then
         "(\n" ++ pretty_format_condition part (indent + 1) ++ "\n" ++
           indentStr indent ++ ")"
       else trimStr (pretty_format_condition part 0)
     | _ => trimStr (pretty_format_condition part 0))
    :: prettyAndParts ps indent
termination_by structural ps => ps

/-- The `formatted_parts` map of the `Expr::Or` arm for indices `i > 0`:
render at indent 0, trim, and prefix `indent_str ++ "OR "`. -/
def prettyOrTail : List Expr → Nat → List String
  | [], _ => []
  | part :: ps, indent =>
    (indentStr indent ++ "OR " ++ trimStr (pretty_format_condition part 0))
    :: prettyOrTail ps indent
termination_by structural ps => ps

end

/-- The capture class `[a-zA-Z0-9_\.]` of `NOT_TALENT_RE` / `TALENT_RE`. -/
def talentCh (c : Char) : Bool := c.isAlpha ∨ c.isDigit ∨ c = '_' ∨ c = '.'

/-- Fuelled scan of `Regex::replace_all` for the two talent patterns: a
literal marker (`!talent.` or `talent.`) followed by a non-empty greedy run
of `talentCh` characters; the match is replaced by the run followed by
`subst`.  Every step consumes at least one character, so `cs.length` fuel
suffices. -/
def replTalentF (marker subst : List Char) : Nat → List Char → List Char
  | 0, cs => cs
  | _ + 1, [] => []
  | fuel + 1, c :: rest =>
    if marker.isPrefixOf (c :: rest) then
      let run := ((c :: rest).drop marker.length).takeWhile talentCh
      if run.isEmpty then c :: replTalentF marker subst fuel rest
      else
        run ++ subst ++
          replTalentF marker subst fuel
            (((c :: rest).drop marker.length).drop run.length)
    else c :: replTalentF marker subst fuel rest

/-- `Regex::replace_all` for the talent patterns. -/
def replaceTalentAll (marker subst cs : List Char) : List Char :=
  replTalentF marker subst cs.length cs

/-- Fuelled scan of `str::replace(pat, "")`: remove every non-overlapping
occurrence of `pat`, scanning left to right. -/
def removeSubF (pat : List Char) : Nat → List Char → List Char
  | 0, cs => cs
  | _ + 1, [] => []
  | fuel + 1, c :: rest =>
    if pat.isPrefixOf (c :: rest) then removeSubF pat fuel ((c :: rest).drop pat.length)
    else c :: removeSubF pat fuel rest

/-- `str::replace(pat, "")`. -/
def removeSub (pat cs : List Char) : List Char := removeSubF pat cs.length cs

/-- The token map of `transform_condition`: `&`→`and`, `|`→`or`, `!`→`not`,
anything else has `debuff.` and then `buff.` occurrences removed. -/
def transformToken (tok : String) : String :=
  if tok = "&" then "and"
  else if tok = "|" then "or"
  else if tok = "!" then "not"
  else String.mk (removeSub "buff.".data (removeSub "debuff.".data tok.data))

/-- `fn transform_condition(raw: &str) -> String`. -/
def transform_condition (raw : String) : String :=
  let r1 := replaceTalentAll "!talent.".data " not talented".data raw.data
  let r2 := replaceTalentAll "talent.".data " talented".data r1
  let transformed_tokens := (tokAux r2 []).map transformToken
  pretty_format_condition (parse_expr transformed_tokens) 1

/-- `str::split_once(pat)`: split at the first occurrence of `pat`. -/
def splitOnceL (pat : List Char) : List Char → Option (List Char × List Char)
  | [] => if pat.isEmpty then some ([], []) else none
  | c :: rest =>
    if pat.isPrefixOf (c :: rest) then some ([], (c :: rest).drop pat.length)
    else
      match splitOnceL pat rest with
      | some (l, r) => some (c :: l, r)
      | none => none

/-- The infallible tail of `fn process_line`, after a separator was found:
strip a leading `actions.` from the trimmed left part, split the trimmed
right part at the first `,if=`, and format the condition when present. -/
def processParts (whenRaw spellRaw : List Char) : String × String :=
  let when :=
    if "actions.".data.isPrefixOf whenRaw then whenRaw.drop "actions.".data.length
    else whenRaw
  match splitOnceL ",if=".data spellRaw with
  | some (s, cond) =>
    (String.mk when,
      String.mk (trimL s) ++ ":\n" ++ transform_condition (String.mk (trimL cond)))
  | none => (String.mk when, String.mk (trimL spellRaw))

/-- `fn process_line(line: &str) -> Option<(String, String)>`. -/
def process_line (line : String) : Option (String × String) :=
  match splitOnceL "+=/".data line.data with
  | some (a, b) => some (processParts (trimL a) (trimL b))
  | none =>
    match splitOnceL "=".data line.data with
    | some (a, b) => some (processParts (trimL a) (trimL b))
    | none => none

/-- Code-point order on character lists: the order `Ord for String` gives
Rust's `BTreeMap<String, _>` (UTF-8 byte order agrees with code-point
order). -/
def keyLt : List Char → List Char → Bool
  | [], [] => false
  | [], _ :: _ => true
  | _ :: _, [] => false
  | c :: cs, d :: ds => if c = d then keyLt cs ds else decide (c.toNat < d.toNat)

/-- `BTreeMap::entry(when).or_insert_with(Vec::new).push(entry)` on the
sorted-association-list model of the map. -/
def insertSorted :
    List (String × List String) → String → String → List (String × List String)
  | [], k, v => [(k, [v])]
  | (k', vs) :: rest, k, v =>
    if k = k' then (k', vs ++ [v]) :: rest
    else if keyLt k.data k'.data then (k, [v]) :: (k', vs) :: rest
    else (k', vs) :: insertSorted rest k v

/-- `str::lines` body: segments end at `'\n'`; a segment terminated by
`'\n'` also loses one trailing `'\r'`; an empty final segment is omitted.
`cur` accumulates the current segment in reverse. -/
def linesAux : List Char → List Char → List (List Char)
  | [], cur => if cur.isEmpty then [] else [cur.reverse]
  | c :: rest, cur =>
    if c = '\n' then
      (if cur.head? = some '\r' then cur.tail.reverse else cur.reverse) :: linesAux rest []
    else linesAux rest (c :: cur)
termination_by structural cs => cs

/-- `str::lines`. -/
def rustLines (cs : List Char) : List (List Char) := linesAux cs []

/-- The body of the `for line in apl.lines()` loop of
`fn process_apl_grouped`. -/
def groupStep (groups : List (String × List String)) (lineCs : List Char) :
    List (String × List String) :=
  let trimmed := trimL lineCs
  if trimmed.isEmpty ∨ trimmed.head? = some '#' then groups
  else
    match process_line (String.mk trimmed) with
    | some (when, entry) => insertSorted groups when entry
    | none => groups

/-- `fn process_apl_grouped(apl: &str) -> BTreeMap<String, Vec<String>>`. -/
def process_apl_grouped (apl : String) : List (String × List String) :=
  (rustLines apl.data).foldl groupStep []

/-- Reasoning helper: the running parenthesis depth of `splitLoop` is
strictly positive before every token of the list. -/
def depthPos : Int → List String → Bool
  | _, [] => true
  | depth, tok :: rest =>
    decide (0 < depth) &&
      depthPos (if tok = "(" then depth + 1 else if tok = ")" then depth - 1 else depth) rest

/-- Split a character list at every newline; used only to state claims about
the individual lines of rendered output. -/
def splitNl : List Char → List (List Char)
  | [] => [[]]
  | c :: rest =>
    if c = '\n' then [] :: splitNl rest
    else
      match splitNl rest with
      | [] => [[c]]
      | l :: ls => (c :: l) :: ls

example : tokenize_line "dmg<=5" = ["dmg", "<=", "5"] := rfl

example : tokenize_line "" = [] := rfl

example : parse_expr (tokenize_line "a and b or c")
    = .Or [.And [.Atom "a", .Atom "b"], .Atom "c"] := rfl

example : transform_condition "buff.stacks>=3" = "    stacks >= 3" := rfl

example : transform_condition "mana>50|talent.icy_veins"
    = "    mana > 50\n    OR icy_veins talented" := rfl

example : process_line "actions.foo=bar" = some ("foo", "bar") := rfl

example : process_apl_grouped "zeta=a\nalpha=b" = [("alpha", ["b"]), ("zeta", ["a"])] := rfl

example :
    process_apl_grouped
        "actions.precombat=snapshot_stats\nactions+=/fireball,if=talent.pyromania&!debuff.burning\nactions+=/frostbolt,if=mana>50|talent.icy_veins"
      = [("actions",
            ["fireball:\n    pyromania talented AND !burning",
             "frostbolt:\n    mana > 50\n    OR icy_veins talented"]),
         ("precombat", ["snapshot_stats"])] := rfl

example : transform_condition "!ready" = "    !ready" := rfl

example : transform_condition "!(x)" = "    not ( x )" := rfl

example : transform_condition "((x" = "    ( ( x" := rfl

example : process_line "a=b+=/c" = some ("a=b", "c") := rfl

example : transformToken "xdebuff.y" = "xy" := rfl

example :
    pretty_format_condition
        (.Or [.Atom "a", .And [.Atom "b", .Or [.Atom "c", .Atom "d"]]]) 1
      = "    a\n    OR b AND (\n    c\n    OR d\n)" := rfl

example : parse_expr ["(", "a", "and", "b", ")"] = parse_expr ["a", "and", "b"] := rfl

example : transform_condition "talent.foo.bar" = "    foo.bar talented" := rfl

example : transform_condition "!talent.x" = "    x not talented" := rfl

example : process_apl_grouped "# c\n\n  \nk=1\nk=2" = [("k", ["1", "2"])] := rfl

theorem splitLoop_spec (op : String) :
    ∀ (rest : List String) (depth : Int) (cur : List String)
      (parts parts2 : List (List String)) (lastP : List String),
      splitLoop op rest depth cur parts = (parts2, lastP) →
      (∀ p ∈ parts2, p ∈ parts ∨ p.length + 1 ≤ cur.length + rest.length) ∧
        (parts2 = parts ∧ lastP = cur ++ rest ∨ lastP.length + 1 ≤ rest.length) := by
  intro rest
  induction rest with
  | nil =>
    intro depth cur parts parts2 lastP h
    simp only [splitLoop, Prod.mk.injEq] at h
    obtain ⟨h1, h2⟩ := h
    subst h1
    subst h2
    exact ⟨fun p hp => Or.inl hp, Or.inl ⟨rfl, by simp⟩⟩
  | cons tok rest ih =>
    intro depth cur parts parts2 lastP h
    simp only [splitLoop] at h
    split_ifs at h with h1 h2 h3
    · obtain ⟨ha, hb⟩ := ih _ _ _ _ _ h
      refine ⟨fun p hp => ?_, ?_⟩
      · rcases ha p hp with hp2 | hp2
        · exact Or.inl hp2
        · right
          simp only [List.length_append, List.length_cons, List.length_nil] at hp2 ⊢
          omega
      · rcases hb with ⟨hb1, hb2⟩ | hb2
        · exact Or.inl ⟨hb1, by simp [hb2]⟩
        · right
          simp only [List.length_cons]
          omega
    · obtain ⟨ha, hb⟩ := ih _ _ _ _ _ h
      refine ⟨fun p hp => ?_, ?_⟩
      · rcases ha p hp with hp2 | hp2
        · exact Or.inl hp2
        · right
          simp only [List.length_append, List.length_cons, List.length_nil] at hp2 ⊢
          omega
      · rcases hb with ⟨hb1, hb2⟩ | hb2
        · exact Or.inl ⟨hb1, by simp [hb2]⟩
        · right
          simp only [List.length_cons]
          omega
    · obtain ⟨ha, hb⟩ := ih _ _ _ _ _ h
      refine ⟨fun p hp => ?_, ?_⟩
      · rcases ha p hp with hp2 | hp2
        · rcases List.mem_append.mp hp2 with hp3 | hp3
          · exact Or.inl hp3
          · right
            simp only [List.mem_singleton] at hp3
            subst hp3
            simp only [List.length_cons]
            omega
        · right
          simp only [List.length_cons, List.length_nil] at hp2 ⊢
          omega
      · right
        rcases hb with ⟨hb1, hb2⟩ | hb2
        · simp only [hb2, List.nil_append, List.length_cons]
          omega
        · simp only [List.length_cons]
          omega
    · obtain ⟨ha, hb⟩ := ih _ _ _ _ _ h
      refine ⟨fun p hp => ?_, ?_⟩
      · rcases ha p hp with hp2 | hp2
        · exact Or.inl hp2
        · right
          simp only [List.length_append, List.length_cons, List.length_nil] at hp2 ⊢
          omega
      · rcases hb with ⟨hb1, hb2⟩ | hb2
        · exact Or.inl ⟨hb1, by simp [hb2]⟩
        · right
          simp only [List.length_cons]
          omega

theorem split_parts_length {tokens : List String} {op : String}
    {parts : List (List String)} (h : split_top_level tokens op = some parts) :
    ∀ p ∈ parts, p.length < tokens.length := by
  unfold split_top_level at h
  rcases hsl : splitLoop op tokens 0 [] [] with ⟨ps, lastP⟩
  rw [hsl] at h
  cases ps with
  | nil => simp at h
  | cons p0 ps2 =>
    simp only [Option.some.injEq] at h
    obtain ⟨hmem, hlast⟩ := splitLoop_spec op tokens 0 [] [] (p0 :: ps2) lastP hsl
    subst h
    intro p hp
    rcases List.mem_append.mp hp with hp2 | hp2
    · rcases hmem p hp2 with h2 | h2
      · simp at h2
      · simpa using h2
    · simp only [List.mem_singleton] at hp2
      subst hp2
      rcases hlast with ⟨hb1, _⟩ | hb2
      · exact absurd hb1 (by simp)
      · omega

theorem parseF_eq (fuel : Nat) :
    ∀ tokens : List String, tokens.length < fuel →
      parseF fuel tokens = parse_expr tokens := by
  induction fuel using Nat.strong_induction_on with
  | _ fuel ih =>
    intro tokens hlt
    cases fuel with
    | zero => omega
    | succ f =>
      show parseF (f + 1) tokens = parseF (tokens.length + 1) tokens
      simp only [parseF]
      cases hor : split_top_level tokens "or" with
      | some parts =>
        simp only [hor]
        congr 1
        apply List.map_congr_left
        intro p hp
        have hplen : p.length < tokens.length := split_parts_length hor p hp
        rw [ih f (by omega) p (by omega), ih tokens.length (by omega) p hplen]
      | none =>
        simp only [hor]
        cases hand : split_top_level tokens "and" with
        | some parts =>
          simp only [hand]
          congr 1
          apply List.map_congr_left
          intro p hp
          have hplen : p.length < tokens.length := split_parts_length hand p hp
          rw [ih f (by omega) p (by omega), ih tokens.length (by omega) p hplen]
        | none =>
          simp only [hand]
          by_cases hg : 2 ≤ tokens.length ∧ tokens.head? = some "(" ∧
              tokens.getLast? = some ")"
          · simp only [if_pos hg]
            by_cases hsg : is_single_group 0 ((tokens.drop 1).dropLast) = true
            · simp only [hsg, if_true]
              have hinner : ((tokens.drop 1).dropLast).length < tokens.length := by
                simp only [List.length_dropLast, List.length_drop]
                omega
              rw [ih f (by omega) _ (by omega), ih tokens.length (by omega) _ hinner]
            · simp only [Bool.not_eq_true] at hsg
              simp only [hsg, Bool.false_eq_true, if_false]
          · simp only [if_neg hg]

theorem parse_expr_or_split {tokens : List String} {parts : List (List String)}
    (h : split_top_level tokens "or" = some parts) :
    parse_expr tokens = .Or (parts.map parse_expr) := by
  unfold parse_expr
  simp only [parseF, h]
  congr 1
  apply List.map_congr_left
  intro p hp
  exact parseF_eq tokens.length p (split_parts_length h p hp)

theorem parse_expr_atom {tokens : List String}
    (hor : split_top_level tokens "or" = none)
    (hand : split_top_level tokens "and" = none)
    (hwrap : ¬(2 ≤ tokens.length ∧ tokens.head? = some "(" ∧
        tokens.getLast? = some ")" ∧
        is_single_group 0 ((tokens.drop 1).dropLast) = true)) :
    parse_expr tokens = .Atom (String.intercalate " " tokens) := by
  unfold parse_expr
  simp only [parseF, hor, hand]
  by_cases hg : 2 ≤ tokens.length ∧ tokens.head? = some "(" ∧
      tokens.getLast? = some ")"
  · simp only [if_pos hg]
    by_cases hsg : is_single_group 0 ((tokens.drop 1).dropLast) = true
    · exact absurd ⟨hg.1, hg.2.1, hg.2.2, hsg⟩ hwrap
    · simp only [Bool.not_eq_true] at hsg
      simp only [hsg, Bool.false_eq_true, if_false]
  · simp only [if_neg hg]

theorem splitLoop_depthPos (op : String) :
    ∀ (rest : List String) (depth : Int) (cur : List String)
      (parts : List (List String)),
      depthPos depth rest = true →
      splitLoop op rest depth cur parts = (parts, cur ++ rest) := by
  intro rest
  induction rest with
  | nil =>
    intro depth cur parts _
    simp [splitLoop]
  | cons tok rest ih =>
    intro depth cur parts hdp
    simp only [depthPos, Bool.and_eq_true, decide_eq_true_eq] at hdp
    obtain ⟨hpos, hdp⟩ := hdp
    simp only [splitLoop]
    split_ifs with h1 h2 h3
    · rw [if_pos h1] at hdp
      rw [ih _ _ _ hdp]
      simp
    · rw [if_neg h1, if_pos h2] at hdp
      rw [ih _ _ _ hdp]
      simp
    · omega
    · rw [if_neg h1, if_neg h2] at hdp
      rw [ih _ _ _ hdp]
      simp

theorem is_single_group_depthPos :
    ∀ (inner : List String) (depth : Int), 0 ≤ depth →
      is_single_group depth inner = true →
      depthPos (depth + 1) (inner ++ [")"]) = true := by
  intro inner
  induction inner with
  | nil =>
    intro depth hd hsg
    simp only [is_single_group, beq_iff_eq] at hsg
    subst hsg
    simp [depthPos]
  | cons tok rest ih =>
    intro depth hd hsg
    simp only [is_single_group] at hsg
    by_cases hneg : (if tok = "(" then depth + 1
        else if tok = ")" then depth - 1 else depth) < 0
    · simp only [if_pos hneg] at hsg
      cases hsg
    · simp only [if_neg hneg] at hsg
      simp only [List.cons_append, depthPos, Bool.and_eq_true, decide_eq_true_eq]
      constructor
      · omega
      · split_ifs with h1 h2
        · rw [if_pos h1] at hsg hneg
          exact ih _ (by omega) hsg
        · rw [if_neg h1, if_pos h2] at hsg hneg
          have := ih _ (by omega) hsg
          convert this using 2
          omega
        · rw [if_neg h1, if_neg h2] at hsg hneg
          exact ih _ (by omega) hsg

theorem split_top_level_wrapped {inner : List String} (op : String)
    (h : is_single_group 0 inner = true) :
    split_top_level ("(" :: (inner ++ [")"])) op = none := by
  have hdp : depthPos 1 (inner ++ [")"]) = true :=
    is_single_group_depthPos inner 0 (le_refl 0) h
  have hstep : splitLoop op ("(" :: (inner ++ [")"])) 0 [] [] =
      splitLoop op (inner ++ [")"]) 1 ["("] [] := by
    simp [splitLoop]
  unfold split_top_level
  rw [hstep, splitLoop_depthPos op _ 1 ["("] [] hdp]

theorem parse_expr_wrapped {inner : List String}
    (h : is_single_group 0 inner = true) :
    parse_expr ("(" :: (inner ++ [")"])) = parse_expr inner := by
  have hor := split_top_level_wrapped "or" h
  have hand := split_top_level_wrapped "and" h
  have hdrop : (("(" :: (inner ++ [")"])).drop 1).dropLast = inner := by
    simp
  have hg : 2 ≤ ("(" :: (inner ++ [")"]) : List String).length ∧
      ("(" :: (inner ++ [")"]) : List String).head? = some "(" ∧
      ("(" :: (inner ++ [")"]) : List String).getLast? = some ")" := by
    refine ⟨by simp, rfl, ?_⟩
    rw [← List.cons_append, List.getLast?_concat]
  have hlen : ("(" :: (inner ++ [")"]) : List String).length = inner.length + 2 := by
    simp
  conv_lhs => rw [parse_expr, hlen]
  simp only [parseF, hor, hand, if_pos hg, hdrop, h, if_true]
  exact parseF_eq (inner.length + 2) inner (by omega)

theorem flushTok_shape {cur : List Char}
    (hcur : ∀ c ∈ cur, opCh c = false ∧ wsCh c = false) :
    ∀ t ∈ flushTok cur,
      t.data ≠ [] ∧ ∀ c ∈ t.data, opCh c = false ∧ wsCh c = false := by
  intro t ht
  unfold flushTok at ht
  split_ifs at ht with he
  · simp at ht
  · simp only [List.mem_singleton] at ht
    subst ht
    refine ⟨?_, ?_⟩
    · show cur.reverse ≠ []
      simp_all
    · intro c hc
      exact hcur c (List.mem_reverse.mp hc)

theorem tokAux_ident_step {c : Char} (rest cur : List Char)
    (hop : opCh c = false) (hws : wsCh c = false) :
    tokAux (c :: rest) cur = tokAux rest (c :: cur) := by
  have hne1 : ∀ rest1 : List Char, c = '<' → rest = '=' :: rest1 → False := by
    intro _ hc _
    subst hc
    simp [opCh] at hop
  have hne2 : ∀ rest1 : List Char, c = '>' → rest = '=' :: rest1 → False := by
    intro _ hc _
    subst hc
    simp [opCh] at hop
  rw [tokAux.eq_4 cur c rest hne1 hne2, if_neg (by simp [hop]),
    if_neg (by simp [hws])]

theorem tokAux_shape (cs cur : List Char) :
    (∀ c ∈ cur, opCh c = false ∧ wsCh c = false) →
    ∀ t ∈ tokAux cs cur,
      (t = "<=" ∨ t = ">=" ∨ t = "<" ∨ t = ">" ∨ t = "=" ∨ t = "&" ∨
        t = "|" ∨ t = "(" ∨ t = ")") ∨
      (t.data ≠ [] ∧ ∀ c ∈ t.data, opCh c = false ∧ wsCh c = false) := by
  induction cs, cur using tokAux.induct with
  | case1 cur =>
    intro hcur t ht
    exact Or.inr (flushTok_shape hcur t ht)
  | case2 rest cur ih =>
    intro hcur t ht
    rw [tokAux] at ht
    rcases List.mem_append.mp ht with ht2 | ht2
    · exact Or.inr (flushTok_shape hcur t ht2)
    · rcases List.mem_cons.mp ht2 with ht3 | ht3
      · exact Or.inl (Or.inl ht3)
      · exact ih (by simp) t ht3
  | case3 rest cur ih =>
    intro hcur t ht
    rw [tokAux] at ht
    rcases List.mem_append.mp ht with ht2 | ht2
    · exact Or.inr (flushTok_shape hcur t ht2)
    · rcases List.mem_cons.mp ht2 with ht3 | ht3
      · exact Or.inl (Or.inr (Or.inl ht3))
      · exact ih (by simp) t ht3
  | case4 c rest cur hne1 hne2 hop ih =>
    intro hcur t ht
    rw [tokAux.eq_4 cur c rest hne1 hne2, if_pos hop] at ht
    rcases List.mem_append.mp ht with ht2 | ht2
    · exact Or.inr (flushTok_shape hcur t ht2)
    · rcases List.mem_cons.mp ht2 with ht3 | ht3
      · left
        subst ht3
        have hop2 := hop
        simp only [opCh, decide_eq_true_eq] at hop2
        rcases hop2 with h | h | h | h | h | h | h <;> subst h <;> simp
      · exact ih (by simp) t ht3
  | case5 c rest cur hne1 hne2 hnop hws ih =>
    intro hcur t ht
    rw [tokAux.eq_4 cur c rest hne1 hne2, if_neg hnop, if_pos hws] at ht
    rcases List.mem_append.mp ht with ht2 | ht2
    · exact Or.inr (flushTok_shape hcur t ht2)
    · exact ih (by simp) t ht2
  | case6 c rest cur hne1 hne2 hnop hnws ih =>
    intro hcur t ht
    rw [tokAux.eq_4 cur c rest hne1 hne2, if_neg hnop, if_neg hnws] at ht
    refine ih ?_ t ht
    intro d hd
    rcases List.mem_cons.mp hd with hd2 | hd2
    · subst hd2
      exact ⟨by simp_all, by simp_all⟩
    · exact hcur d hd2

theorem tokAux_keeps_ident (cs cur : List Char) :
    cur ≠ [] → ∃ t ts, tokAux cs cur = t :: ts ∧ cur.reverse <+: t.data := by
  induction cs, cur using tokAux.induct with
  | case1 cur =>
    intro hne
    refine ⟨String.mk cur.reverse, [], ?_, List.prefix_refl _⟩
    rw [tokAux]
    unfold flushTok
    rw [if_neg (by simp_all)]
  | case2 rest cur ih =>
    intro hne
    refine ⟨String.mk cur.reverse, "<=" :: tokAux rest [], ?_, List.prefix_refl _⟩
    rw [tokAux]
    unfold flushTok
    rw [if_neg (by simp_all)]
    rfl
  | case3 rest cur ih =>
    intro hne
    refine ⟨String.mk cur.reverse, ">=" :: tokAux rest [], ?_, List.prefix_refl _⟩
    rw [tokAux]
    unfold flushTok
    rw [if_neg (by simp_all)]
    rfl
  | case4 c rest cur hne1 hne2 hop ih =>
    intro hne
    refine ⟨String.mk cur.reverse, String.mk [c] :: tokAux rest [], ?_,
      List.prefix_refl _⟩
    rw [tokAux.eq_4 cur c rest hne1 hne2, if_pos hop]
    unfold flushTok
    rw [if_neg (by simp_all)]
    rfl
  | case5 c rest cur hne1 hne2 hnop hws ih =>
    intro hne
    refine ⟨String.mk cur.reverse, tokAux rest [], ?_, List.prefix_refl _⟩
    rw [tokAux.eq_4 cur c rest hne1 hne2, if_neg hnop, if_pos hws]
    unfold flushTok
    rw [if_neg (by simp_all)]
    rfl
  | case6 c rest cur hne1 hne2 hnop hnws ih =>
    intro hne
    obtain ⟨t, ts, heq, hpre⟩ := ih (by simp)
    refine ⟨t, ts, ?_, ?_⟩
    · rw [tokAux.eq_4 cur c rest hne1 hne2, if_neg hnop, if_neg hnws]
      exact heq
    · have : cur.reverse <+: (c :: cur).reverse := by
        simp only [List.reverse_cons]
        exact List.prefix_append _ _
      exact this.trans hpre

theorem splitOnceL_none_iff (pat : List Char) :
    ∀ cs : List Char, splitOnceL pat cs = none ↔ ¬ pat <:+: cs := by
  intro cs
  induction cs with
  | nil =>
    simp only [splitOnceL]
    by_cases hp : pat.isEmpty
    · have hp2 : pat = [] := by simp_all
      subst hp2
      simp
    · have hp2 : pat ≠ [] := by simp_all
      simp [hp, hp2]
  | cons c rest ih =>
    simp only [splitOnceL]
    by_cases hpre : pat.isPrefixOf (c :: rest)
    · simp only [if_pos hpre]
      have hinf : pat <:+: c :: rest :=
        (List.isPrefixOf_iff_prefix.mp hpre).isInfix
      simp [hinf]
    · simp only [if_neg hpre]
      cases hrec : splitOnceL pat rest with
      | some pr =>
        have hinf : pat <:+: c :: rest := by
          have : ¬ splitOnceL pat rest = none := by simp [hrec]
          have := (not_congr (ih)).mp this
          exact List.infix_cons (not_not.mp this)
        rcases pr with ⟨l, r⟩
        simp [hinf]
      | none =>
        have hni : ¬ pat <:+: c :: rest := by
          rw [List.infix_cons_iff]
          push_neg
          exact ⟨fun hc => hpre (List.isPrefixOf_iff_prefix.mpr hc), ih.mp hrec⟩
        simp [hni]

theorem char_eq_of_toNat_eq {c d : Char} (h : c.toNat = d.toNat) : c = d := by
  have hv : c.val = d.val := by
    unfold Char.toNat at h
    exact UInt32.toNat.inj h
  exact Char.eq_of_val_eq hv

theorem keyLt_asymm_eq :
    ∀ a b : List Char, keyLt a b = false → keyLt b a = false → a = b := by
  intro a
  induction a with
  | nil =>
    intro b hab hba
    cases b with
    | nil => rfl
    | cons d ds => simp [keyLt] at hab
  | cons c cs ih =>
    intro b hab hba
    cases b with
    | nil => simp [keyLt] at hba
    | cons d ds =>
      simp only [keyLt] at hab hba
      by_cases hcd : c = d
      · subst hcd
        rw [if_pos rfl] at hab hba
        rw [ih ds hab hba]
      · rw [if_neg hcd, decide_eq_false_iff_not] at hab
        rw [if_neg (fun h => hcd h.symm), decide_eq_false_iff_not] at hba
        exact absurd (char_eq_of_toNat_eq (by omega)) hcd

theorem keyLt_trans :
    ∀ a b c : List Char, keyLt a b = true → keyLt b c = true →
      keyLt a c = true := by
  intro a
  induction a with
  | nil =>
    intro b c hab hbc
    cases b with
    | nil => simp [keyLt] at hab
    | cons y ys =>
      cases c with
      | nil => simp [keyLt] at hbc
      | cons z zs => simp [keyLt]
  | cons x xs ih =>
    intro b c hab hbc
    cases b with
    | nil => simp [keyLt] at hab
    | cons y ys =>
      cases c with
      | nil => simp [keyLt] at hbc
      | cons z zs =>
        simp only [keyLt] at hab hbc ⊢
        by_cases hxy : x = y
        · subst hxy
          rw [if_pos rfl] at hab
          by_cases hyz : x = z
          · subst hyz
            rw [if_pos rfl] at hbc ⊢
            exact ih ys zs hab hbc
          · rw [if_neg hyz] at hbc ⊢
            exact hbc
        · rw [if_neg hxy, decide_eq_true_eq] at hab
          by_cases hyz : y = z
          · subst hyz
            rw [if_neg hxy, decide_eq_true_eq]
            exact hab
          · rw [if_neg hyz, decide_eq_true_eq] at hbc
            have hxz : x.toNat < z.toNat := Nat.lt_trans hab hbc
            rw [if_neg (fun h => by subst h; omega), decide_eq_true_eq]
            exact hxz

/-- The key order used by the sorted-map model. -/
def keyOrd (a b : String) : Prop := keyLt a.data b.data = true

theorem mem_insertSorted_fst :
    ∀ (m : List (String × List String)) (k v : String) (x : String),
      x ∈ (insertSorted m k v).map Prod.fst → x = k ∨ x ∈ m.map Prod.fst := by
  intro m k v
  induction m with
  | nil =>
    intro x hx
    simp only [insertSorted, List.map_cons, List.map_nil, List.mem_singleton] at hx
    exact Or.inl hx
  | cons hd rest ih =>
    intro x hx
    rcases hd with ⟨k', vs⟩
    simp only [insertSorted] at hx
    split_ifs at hx with h1 h2
    · simp only [List.map_cons, List.mem_cons] at hx
      rcases hx with hx | hx
      · right
        simp [hx]
      · right
        simp only [List.map_cons, List.mem_cons]
        exact Or.inr hx
    · simp only [List.map_cons, List.mem_cons] at hx
      rcases hx with hx | hx
      · exact Or.inl hx
      · right
        simpa using hx
    · simp only [List.map_cons, List.mem_cons] at hx
      rcases hx with hx | hx
      · right
        simp [hx]
      · rcases ih x hx with hx2 | hx2
        · exact Or.inl hx2
        · right
          simp only [List.map_cons, List.mem_cons]
          exact Or.inr hx2

theorem insertSorted_sorted :
    ∀ (m : List (String × List String)) (k v : String),
      (m.map Prod.fst).Pairwise keyOrd →
      ((insertSorted m k v).map Prod.fst).Pairwise keyOrd := by
  intro m k v
  induction m with
  | nil =>
    intro _
    simp [insertSorted]
  | cons hd rest ih =>
    intro hp
    rcases hd with ⟨k', vs⟩
    simp only [List.map_cons, List.pairwise_cons] at hp
    obtain ⟨hk', hrest⟩ := hp
    simp only [insertSorted]
    split_ifs with h1 h2
    · simp only [List.map_cons, List.pairwise_cons]
      exact ⟨hk', hrest⟩
    · simp only [List.map_cons, List.pairwise_cons]
      refine ⟨?_, hk', hrest⟩
      intro x hx
      simp only [List.mem_cons] at hx
      rcases hx with hx | hx
      · subst hx
        exact h2
      · exact keyLt_trans _ _ _ h2 (hk' x hx)
    · simp only [List.map_cons, List.pairwise_cons]
      refine ⟨?_, ih hrest⟩
      intro x hx
      rcases mem_insertSorted_fst rest k v x hx with rfl | hx2
      · unfold keyOrd
        by_contra hc
        simp only [Bool.not_eq_true] at hc
        have h2f : keyLt x.data k'.data = false := by simpa using h2
        have hdata : x.data = k'.data := keyLt_asymm_eq x.data k'.data h2f hc
        refine h1 ?_
        cases x
        cases k'
        simp only [String.data] at hdata
        rw [hdata]
      · exact hk' x hx2

theorem groupStep_sorted {groups : List (String × List String)}
    (lineCs : List Char)
    (h : (groups.map Prod.fst).Pairwise keyOrd) :
    ((groupStep groups lineCs).map Prod.fst).Pairwise keyOrd := by
  unfold groupStep
  simp only []
  split_ifs with h1
  · exact h
  · cases hpl : process_line (String.mk (trimL lineCs)) with
    | some kv =>
      rcases kv with ⟨when, entry⟩
      simp only [hpl]
      exact insertSorted_sorted groups when entry h
    | none =>
      simp only [hpl]
      exact h

theorem foldl_groupStep_sorted :
    ∀ (ls : List (List Char)) (groups : List (String × List String)),
      (groups.map Prod.fst).Pairwise keyOrd →
      (((ls.foldl groupStep groups).map Prod.fst)).Pairwise keyOrd := by
  intro ls
  induction ls with
  | nil => intro groups h; exact h
  | cons l ls ih =>
    intro groups h
    exact ih (groupStep groups l) (groupStep_sorted l h)

theorem process_apl_grouped_sorted (apl : String) :
    ((process_apl_grouped apl).map Prod.fst).Pairwise keyOrd := by
  unfold process_apl_grouped
  exact foldl_groupStep_sorted (rustLines apl.data) [] (by simp)

theorem groupStep_skip {groups : List (String × List String)}
    {lineCs : List Char}
    (h : trimL lineCs = [] ∨ (trimL lineCs).head? = some '#') :
    groupStep groups lineCs = groups := by
  unfold groupStep
  rw [if_pos ?_]
  rcases h with h | h
  · exact Or.inl (by simp [h])
  · exact Or.inr h

theorem process_line_none_iff (line : String) :
    process_line line = none ↔
      ¬ ("+=/".data <:+: line.data) ∧ ¬ ("=".data <:+: line.data) := by
  unfold process_line
  cases h1 : splitOnceL "+=/".data line.data with
  | some ab =>
    rcases ab with ⟨a, b⟩
    have hinf : "+=/".data <:+: line.data := by
      have hne : ¬ splitOnceL "+=/".data line.data = none := by simp [h1]
      exact not_not.mp ((not_congr (splitOnceL_none_iff _ _)).mp hne)
    simp [hinf]
  | none =>
    cases h2 : splitOnceL "=".data line.data with
    | some ab =>
      rcases ab with ⟨a, b⟩
      have hinf : "=".data <:+: line.data := by
        have hne : ¬ splitOnceL "=".data line.data = none := by simp [h2]
        exact not_not.mp ((not_congr (splitOnceL_none_iff _ _)).mp hne)
      simp [hinf]
    | none =>
      simp [(splitOnceL_none_iff _ _).mp h1, (splitOnceL_none_iff _ _).mp h2]

theorem prettyOrTail_eq_map (ps : List Expr) (indent : Nat) :
    prettyOrTail ps indent =
      ps.map (fun p =>
        indentStr indent ++ "OR " ++ trimStr (pretty_format_condition p 0)) := by
  induction ps with
  | nil => rfl
  | cons p ps ih => simp [prettyOrTail, ih]

theorem tokenize_bang_ident (c : Char) (rest : List Char)
    (hop : opCh c = false) (hws : wsCh c = false) :
    ∃ t ts, tokAux ('!' :: c :: rest) [] = t :: ts ∧ ['!', c] <+: t.data := by
  rw [tokAux_ident_step (c :: rest) [] (by decide) (by decide)]
  rw [tokAux_ident_step rest ['!'] hop hws]
  obtain ⟨t, ts, heq, hpre⟩ := tokAux_keeps_ident rest [c, '!'] (by simp)
  exact ⟨t, ts, heq, by simpa using hpre⟩

/-- C1: for every token sequence the parser attempts a depth-0 split on the
literal token `or` before attempting one on `and`, so OR is the outermost
(lowest-precedence) operator; tokenizing and parsing "a and b or c" yields
`Or [And [Atom "a", Atom "b"], Atom "c"]`. -/
theorem claim_C1 :
    (∀ (tokens : List String) (parts : List (List String)),
        split_top_level tokens "or" = some parts →
        parse_expr tokens = .Or (parts.map parse_expr)) ∧
      parse_expr (tokenize_line "a and b or c") =
        .Or [.And [.Atom "a", .Atom "b"], .Atom "c"] :=
  ⟨fun _ _ h => parse_expr_or_split h, rfl⟩

/-- Witness for C1 at the concrete token sequence `["x", "or", "y"]`. -/
theorem claim_C1_witness :
    split_top_level ["x", "or", "y"] "or" = some [["x"], ["y"]] ∧
      parse_expr ["x", "or", "y"] = .Or ([["x"], ["y"]].map parse_expr) :=
  ⟨by decide, claim_C1.1 ["x", "or", "y"] [["x"], ["y"]] (by decide)⟩

/-- C2 counterexample: rendering the Disjunction
`Or [Atom "a", And [Atom "b", Or [Atom "c", Atom "d"]]]` at indent level 1,
the subsequent child's block has continuation lines ("    c", "    OR d",
")") that keep their indent-0 rendering; in particular the final line ")"
does not start with the level-1 indent, contradicting "every line re-indented
to level n". -/
theorem claim_C2_counterexample :
    pretty_format_condition
        (.Or [.Atom "a", .And [.Atom "b", .Or [.Atom "c", .Atom "d"]]]) 1 =
      "    a\n    OR b AND (\n    c\n    OR d\n)" ∧
      splitNl (pretty_format_condition
          (.Or [.Atom "a", .And [.Atom "b", .Or [.Atom "c", .Atom "d"]]]) 1).data =
        ["    a".data, "    OR b AND (".data, "    c".data, "    OR d".data,
          ")".data] ∧
      ("    ".data.isPrefixOf ")".data) = false :=
  ⟨rfl, rfl, rfl⟩

/-- C2 (amended): for a Disjunction with at least two children at indent
level n, the first child's rendering is used as-is (preserving its internal
multi-line structure); every subsequent child is rendered at indent 0,
trimmed, and prefixed with the level-n indent followed by `OR ` — so only its
first line is re-indented to level n, while any further lines of its
rendering are kept unchanged; the blocks are joined with newlines. -/
theorem claim_C2_amended (p0 p1 : Expr) (rest : List Expr) (n : Nat) :
    pretty_format_condition (.Or (p0 :: p1 :: rest)) n =
      String.intercalate "\n"
        (pretty_format_condition p0 n ::
          (p1 :: rest).map (fun p =>
            indentStr n ++ "OR " ++ trimStr (pretty_format_condition p 0))) := by
  simp only [pretty_format_condition]
  rw [prettyOrTail_eq_map]

/-- C3 counterexample: the transformed tokens of "buff.stacks>=3" parse to an
Atom whose text is "stacks >= 3" — the tokens are rejoined with single
spaces — not the claimed "stacks>=3". -/
theorem claim_C3_counterexample :
    parse_expr ((tokenize_line "buff.stacks>=3").map transformToken) =
      .Atom "stacks >= 3" ∧ ("stacks >= 3" : String) ≠ "stacks>=3" :=
  ⟨rfl, by decide⟩

/-- C3 (amended): every token other than `&`, `|`, `!` has all occurrences of
the literal substrings `debuff.` and then `buff.` removed (anywhere in the
token, not just a prefix), and the condition text "buff.stacks>=3" renders as
an atom whose text is "stacks >= 3", the stripped tokens rejoined with single
spaces. -/
theorem claim_C3_amended :
    (∀ tok : String, tok ≠ "&" → tok ≠ "|" → tok ≠ "!" →
        transformToken tok =
          String.mk (removeSub "buff.".data (removeSub "debuff.".data tok.data))) ∧
      transform_condition "buff.stacks>=3" = "    stacks >= 3" ∧
      transformToken "xdebuff.y" = "xy" := by
  refine ⟨?_, rfl, rfl⟩
  intro tok h1 h2 h3
  unfold transformToken
  rw [if_neg h1, if_neg h2, if_neg h3]

/-- Witness for the amended C3 at the concrete token "buff.x". -/
theorem claim_C3_amended_witness :
    ("buff.x" : String) ≠ "&" ∧ ("buff.x" : String) ≠ "|" ∧
      ("buff.x" : String) ≠ "!" ∧
      transformToken "buff.x" =
        String.mk (removeSub "buff.".data (removeSub "debuff.".data "buff.x".data)) :=
  ⟨by decide, by decide, by decide,
    claim_C3_amended.1 "buff.x" (by decide) (by decide) (by decide)⟩

/-- C4 counterexample: on the three-line script, the grouped output has no
key "+" at all — the two `+=/` lines are grouped under the key "actions". -/
theorem claim_C4_counterexample :
    (List.lookup "+" (process_apl_grouped
        "actions.precombat=snapshot_stats\nactions+=/fireball,if=talent.pyromania&!debuff.burning\nactions+=/frostbolt,if=mana>50|talent.icy_veins")) = none ∧
      (process_apl_grouped
          "actions.precombat=snapshot_stats\nactions+=/fireball,if=talent.pyromania&!debuff.burning\nactions+=/frostbolt,if=mana>50|talent.icy_veins").map
          Prod.fst = ["actions", "precombat"] :=
  ⟨rfl, rfl⟩

/-- C4 (amended): the three-line script maps "precombat" to the single entry
"snapshot_stats", and groups the two `+=/` lines under the key "actions" (the
trimmed left part of the `+=/` split is "actions"; it does not carry the
`actions.` prefix, so the prefix-strip rule leaves it unchanged). -/
theorem claim_C4_amended :
    process_apl_grouped
        "actions.precombat=snapshot_stats\nactions+=/fireball,if=talent.pyromania&!debuff.burning\nactions+=/frostbolt,if=mana>50|talent.icy_veins" =
      [("actions",
          ["fireball:\n    pyromania talented AND !burning",
           "frostbolt:\n    mana > 50\n    OR icy_veins talented"]),
       ("precombat", ["snapshot_stats"])] := rfl

/-- C5: parsing a token sequence wrapped in a matched parenthesis pair (first
token `(`, last token `)`, interior never dropping below depth 0 and
returning to depth 0) yields the same Expression as parsing the interior; in
particular "(a and b)" parses identically to "a and b". -/
theorem claim_C5 :
    (∀ inner : List String, is_single_group 0 inner = true →
        parse_expr ("(" :: (inner ++ [")"])) = parse_expr inner) ∧
      parse_expr (tokenize_line "(a and b)") = parse_expr (tokenize_line "a and b") :=
  ⟨fun _ h => parse_expr_wrapped h, rfl⟩

/-- Witness for C5 at the concrete interior `["a", "and", "b"]`. -/
theorem claim_C5_witness :
    is_single_group 0 ["a", "and", "b"] = true ∧
      parse_expr ("(" :: (["a", "and", "b"] ++ [")"])) =
        parse_expr ["a", "and", "b"] :=
  ⟨by decide, claim_C5.1 ["a", "and", "b"] (by decide)⟩

/-- C6: every token the tokenizer produces is either one of the two-character
operators `<=`/`>=`, a one-character operator `<`, `>`, `=`, `&`, `|`, `(`,
`)`, or a non-empty run of characters that are neither operator characters
nor whitespace; "dmg<=5" tokenizes into "dmg", "<=", "5" — the two-character
operator is not split — and the empty string yields zero tokens. -/
theorem claim_C6 :
    (∀ s : String, ∀ t ∈ tokenize_line s,
        (t = "<=" ∨ t = ">=" ∨ t = "<" ∨ t = ">" ∨ t = "=" ∨ t = "&" ∨
          t = "|" ∨ t = "(" ∨ t = ")") ∨
        (t.data ≠ [] ∧ ∀ c ∈ t.data, opCh c = false ∧ wsCh c = false)) ∧
      tokenize_line "dmg<=5" = ["dmg", "<=", "5"] ∧
      tokenize_line "" = [] :=
  ⟨fun s t ht => tokAux_shape s.data [] (by simp) t ht, rfl, rfl⟩

/-- Witness for C6 at the concrete string "a<=b" and its token "<=". -/
theorem claim_C6_witness :
    "<=" ∈ tokenize_line "a<=b" ∧
      ((("<=" : String) = "<=" ∨ ("<=" : String) = ">=" ∨
          ("<=" : String) = "<" ∨ ("<=" : String) = ">" ∨
          ("<=" : String) = "=" ∨ ("<=" : String) = "&" ∨
          ("<=" : String) = "|" ∨ ("<=" : String) = "(" ∨
          ("<=" : String) = ")") ∨
        (("<=" : String).data ≠ [] ∧
          ∀ c ∈ ("<=" : String).data, opCh c = false ∧ wsCh c = false)) :=
  ⟨by decide, claim_C6.1 "a<=b" "<=" (by decide)⟩

/-- C7: `process_line` is absent exactly when the line contains neither the
substring `+=/` nor the character `=`; otherwise it splits at the first
`+=/` when present (even when an `=` occurs earlier), else at the first `=`,
and the trigger key is the trimmed left part with a leading `actions.`
prefix stripped; `process_line "actions.foo=bar"` yields key "foo" and
entry "bar". -/
theorem claim_C7 :
    (∀ line : String, process_line line = none ↔
        ¬ ("+=/".data <:+: line.data) ∧ ¬ ("=".data <:+: line.data)) ∧
      process_line "actions.foo=bar" = some ("foo", "bar") ∧
      process_line "a=b+=/c" = some ("a=b", "c") :=
  ⟨process_line_none_iff, rfl, rfl⟩

/-- Witness for C7 at the concrete separator-free line "nosep". -/
theorem claim_C7_witness :
    process_line "nosep" = none ∧
      ¬ ("+=/".data <:+: "nosep".data) ∧ ¬ ("=".data <:+: "nosep".data) :=
  ⟨rfl, (claim_C7.1 "nosep").mp rfl⟩

/-- C8: the grouper skips every line that is empty after trimming or starts
with `#`; the keys of the resulting mapping are pairwise in code-point
lexicographic order for every input script (so iteration is sorted
regardless of insertion order: inserting "zeta" then "alpha" iterates
"alpha" first), and within a key the entries keep original line order. -/
theorem claim_C8 :
    (∀ apl : String, ((process_apl_grouped apl).map Prod.fst).Pairwise keyOrd) ∧
      (∀ (groups : List (String × List String)) (lineCs : List Char),
        trimL lineCs = [] ∨ (trimL lineCs).head? = some '#' →
        groupStep groups lineCs = groups) ∧
      process_apl_grouped "zeta=a\nalpha=b" = [("alpha", ["b"]), ("zeta", ["a"])] ∧
      process_apl_grouped "# c\n\n  \nk=1\nk=2" = [("k", ["1", "2"])] :=
  ⟨process_apl_grouped_sorted, fun _ _ h => groupStep_skip h, rfl, rfl⟩

/-- Witness for C8 at a concrete comment line. -/
theorem claim_C8_witness :
    (trimL "  # x".data = [] ∨ (trimL "  # x".data).head? = some '#') ∧
      groupStep [("k", ["v"])] "  # x".data = [("k", ["v"])] :=
  ⟨Or.inr (by decide),
    claim_C8.2.1 [("k", ["v"])] "  # x".data (Or.inr (by decide))⟩

/-- C9: the pipeline is total and lenient — a token sequence with no depth-0
`or`/`and` split that is not a matched parenthesis wrap degrades to an Atom
holding the space-joined tokens; unparseable fragments like "((x" render as
best-effort atoms, and malformed script text still produces a grouped map. -/
theorem claim_C9 :
    (∀ tokens : List String,
        split_top_level tokens "or" = none →
        split_top_level tokens "and" = none →
        ¬(2 ≤ tokens.length ∧ tokens.head? = some "(" ∧
            tokens.getLast? = some ")" ∧
            is_single_group 0 ((tokens.drop 1).dropLast) = true) →
        parse_expr tokens = .Atom (String.intercalate " " tokens)) ∧
      transform_condition "((x" = "    ( ( x" ∧
      process_apl_grouped "garbage((\n=)(\n" = [("", [")("])] :=
  ⟨fun _ h1 h2 h3 => parse_expr_atom h1 h2 h3, rfl, rfl⟩

/-- Witness for C9 at the concrete malformed token sequence `["(", "("]`. -/
theorem claim_C9_witness :
    split_top_level ["(", "("] "or" = none ∧
      split_top_level ["(", "("] "and" = none ∧
      ¬(2 ≤ (["(", "("] : List String).length ∧
          (["(", "("] : List String).head? = some "(" ∧
          (["(", "("] : List String).getLast? = some ")" ∧
          is_single_group 0 (((["(", "("] : List String).drop 1).dropLast) = true) ∧
      parse_expr ["(", "("] = .Atom (String.intercalate " " ["(", "("]) :=
  ⟨by decide, by decide, by decide,
    claim_C9.1 ["(", "("] (by decide) (by decide) (by decide)⟩

/-- C10: a `!` immediately followed by a non-operator, non-whitespace
character is tokenized as part of a single identifier token (the first token
produced starts with `!` followed by that character), so the token-level
`!` → `not` mapping does not apply to it: "!ready" renders as the atom
"!ready"; `!` maps to `not` only when it stands alone as a token, for
example immediately before `(` as in "!(x)". -/
theorem claim_C10 :
    (∀ (c : Char) (rest : List Char), opCh c = false → wsCh c = false →
        ∃ t ts, tokAux ('!' :: c :: rest) [] = t :: ts ∧ ['!', c] <+: t.data) ∧
      transform_condition "!ready" = "    !ready" ∧
      transform_condition "!(x)" = "    not ( x )" :=
  ⟨tokenize_bang_ident, rfl, rfl⟩

/-- Witness for C10 at the concrete character 'r' and tail "eady". -/
theorem claim_C10_witness :
    opCh 'r' = false ∧ wsCh 'r' = false ∧
      ∃ t ts, tokAux ('!' :: 'r' :: "eady".data) [] = t :: ts ∧
        ['!', 'r'] <+: t.data :=
  ⟨by decide, by decide, claim_C10.1 'r' "eady".data (by decide) (by decide)⟩
